import Mathlib

/-!
Verification of the calendar trigger engine in
`package/apps/calendar/scheduler.py` and `package/apps/calendar/models.py`.

Shallow embedding conventions:
* A `datetime` is an `Int`, counting microseconds from a fixed epoch
  midnight.  A `date` is an `Int` counting days from that epoch; the epoch
  day is chosen to be a Monday, so Python's `date.weekday()`
  (Monday = 0 .. Sunday = 6) becomes `day % 7`.  This is the image of
  Python's proleptic-Gregorian ordinal under the shift `d = ordinal - 1`,
  which preserves all date arithmetic and weekday computations.
* Python floor division / modulus on ints is `Int.ediv` / `Int.emod`
  (both agree with floor semantics for the positive divisors used here).
* `datetime.replace(microsecond=0)` zeroes the (always non-negative)
  microsecond field, i.e. floors to a whole second.
* Python `str` is modelled as `List Char`.
* Object identity (`is`) between `Event` snapshots is modelled as
  structural equality: each event is loaded once per reload and every job
  for it holds the same reference.
* The `heapq` priority queue is modelled by its contents, a
  `List TriggerJob`; `heappush` appends, `heappop` removes a job of
  minimal `due` (ties resolved to the earliest listed job), and
  `heapify` is the identity on contents.
-/

namespace Calendar

/-- Microseconds in one second. -/
def usPerSec : Int := 1000000

/-- Microseconds in one minute (`timedelta(minutes=1)`). -/
def usPerMin : Int := 60000000

/-- Microseconds in one day (`timedelta(days=1)`). -/
def usPerDay : Int := 86400000000

/-- The `.date()` of a datetime: its day number. -/
def dateOf (dt : Int) : Int := dt / usPerDay

/-- Time of day of a datetime, in microseconds since midnight. -/
def timeOfDay (dt : Int) : Int := dt % usPerDay

/-- Python `datetime.combine(d, t)`: day number plus time of day. -/
def combine (d timeUs : Int) : Int := d * usPerDay + timeUs

/-- Python `date.weekday()` under the epoch-is-Monday convention. -/
def weekday (d : Int) : Int := d % 7

/-- Python `dt.replace(microsecond=0)`: floor to a whole second. -/
def truncMicroseconds (dt : Int) : Int := (dt / usPerSec) * usPerSec

/-- The `TypeofTime` enum of `models.py`. -/
inductive TypeofTime
  | BEFORE
  | AT
  | AFTER
deriving DecidableEq

/-- The `WeekDay` enum of `models.py` (values 1..7, Monday..Sunday). -/
inductive WeekDay
  | Monday
  | Tuesday
  | Wednesday
  | Thursday
  | Friday
  | Saturday
  | Sunday
deriving DecidableEq

/-- The integer `.value` of a `WeekDay` enum member. -/
def WeekDay.value : WeekDay → Int
  | .Monday => 1
  | .Tuesday => 2
  | .Wednesday => 3
  | .Thursday => 4
  | .Friday => 5
  | .Saturday => 6
  | .Sunday => 7

/-- The `api` payload dict carried by an API-action trigger: the fields
`_execute_internal_api_action` reads (`method`, `path`), after the
`str(...).strip().upper()` / `str(...).strip()` normalisation the source
applies.  The optional request body does not affect any property proved
here and is omitted. -/
structure ApiSpec where
  method : List Char
  path : List Char
deriving DecidableEq

/-- The `TimeOfTrigger` class of `models.py`.  `enabled` models
`getattr(trig, "enabled", True)`: the class itself never sets the
attribute, so loaded triggers carry `true`, but the scheduler honours the
flag wherever it is present. -/
structure TimeOfTrigger where
  minutes : Int
  typeOfTrigger : TypeofTime
  buttonURL : List Char := []
  actionType : List Char := []
  api : Option ApiSpec := none
  enabled : Bool := true
deriving DecidableEq

/-- The derived `timer` field computed in `TimeOfTrigger.__init__`:
`-minutes` for BEFORE, `0` for AT, `+minutes` for AFTER. -/
def TimeOfTrigger.timer (t : TimeOfTrigger) : Int :=
  match t.typeOfTrigger with
  | .BEFORE => -t.minutes
  | .AT => 0
  | .AFTER => t.minutes

/-- The `Event` class of `models.py`.  `date`/`time` are the anchor date
and anchor time-of-day. -/
structure Event where
  name : List Char
  id : Option Int
  day : WeekDay
  date : Int
  time : Int
  repeating : Bool
  active : Bool := true
  times : List TimeOfTrigger
deriving DecidableEq

/-- The `TriggerJob` dataclass of `models.py`. -/
structure TriggerJob where
  due : Int
  event : Event
  occurrence : Int
  trigger_index : Nat
  trigger : TimeOfTrigger
deriving DecidableEq

/-- The ordering generated by `@dataclass(order=True)` on `TriggerJob`:
every field except `due` is declared `field(compare=False)`, so the
comparison tuple is `(due,)`. -/
def TriggerJob.lt (a b : TriggerJob) : Bool := decide (a.due < b.due)

/-- The non-strict comparison used for sorting jobs (`sorted(self._heap)`
compares the `(due,)` tuples). -/
def TriggerJob.le (a b : TriggerJob) : Bool := decide (a.due ≤ b.due)

/-- Due time of a trigger for an occurrence:
`(occurrence + timedelta(minutes=trig.timer)).replace(microsecond=0)`. -/
def dueTime (occurrence : Int) (trig : TimeOfTrigger) : Int :=
  truncMicroseconds (occurrence + trig.timer * usPerMin)

/-- The `_has_future_trigger` closure inside `next_weekly_occurrence`:
some enabled trigger of the event has a due time strictly after `now`. -/
def hasFutureTrigger (event : Event) (occurrence now : Int) : Bool :=
  event.times.any fun trig => trig.enabled && decide (now < dueTime occurrence trig)

/-- First date on/after the event's anchor date falling on the configured
weekday (`first_date` in `next_weekly_occurrence`). -/
def firstDateFor (event : Event) : Int :=
  event.date + (event.day.value - 1 - weekday event.date) % 7

/-- The function `next_weekly_occurrence(event, now)` of `scheduler.py`. -/
def nextWeeklyOccurrence (event : Event) (now : Int) : Option Int :=
  let base := combine event.date event.time
  if !event.repeating then
    if now < base then some base
    else if hasFutureTrigger event base now then some base
    else none
  else
    let targetWeekday := event.day.value - 1
    let firstDate := firstDateFor event
    let today := dateOf now
    let daysBack := (weekday today - targetWeekday) % 7
    let lastDate0 := today - daysBack
    let lastDate := if lastDate0 < firstDate then firstDate else lastDate0
    let lastOcc := combine lastDate event.time
    if now < lastOcc then some lastOcc
    else if hasFutureTrigger event lastOcc now then some lastOcc
    else some (lastOcc + 7 * usPerDay)

/-- The loop body of `push_triggers_for_occurrence`: enumerate the
event's triggers from index `idx`, skip disabled ones, and keep a job for
each trigger whose due time is strictly after `now`. -/
def pushJobsAux (event : Event) (occurrence now : Int) : Nat → List TimeOfTrigger → List TriggerJob
  | _, [] => []
  | idx, trig :: rest =>
    if trig.enabled then
      if now < dueTime occurrence trig then
        ⟨dueTime occurrence trig, event, occurrence, idx, trig⟩ ::
          pushJobsAux event occurrence now (idx + 1) rest
      else pushJobsAux event occurrence now (idx + 1) rest
    else pushJobsAux event occurrence now (idx + 1) rest

/-- The function `push_triggers_for_occurrence(heap, event, occurrence, now)`
of `scheduler.py`; `heappush` grows the heap contents. -/
def pushTriggersForOccurrence (heap : List TriggerJob) (event : Event) (occurrence now : Int) :
    List TriggerJob :=
  heap ++ pushJobsAux event occurrence now 0 event.times

/-- Shared fact: the repeating branch of `next_weekly_occurrence` always
returns a datetime (every `return` in it is non-`None`). -/
theorem nextWeeklyOccurrence_repeating_isSome (event : Event) (now : Int)
    (hrep : event.repeating = true) : (nextWeeklyOccurrence event now).isSome = true := by
  unfold nextWeeklyOccurrence
  rw [hrep]
  simp only [Bool.not_true, Bool.false_eq_true, if_false]
  repeat' split
  all_goals rfl

/-- C10: for every repeating event and every now, `next_weekly_occurrence`
never returns `None`; the `None` result is reachable only for
non-repeating events. -/
theorem claim_C10_repeating_never_none (event : Event) (now : Int) :
    (event.repeating = true → ∃ r, nextWeeklyOccurrence event now = some r) ∧
    (nextWeeklyOccurrence event now = none → event.repeating = false) := by
  constructor
  · intro hrep
    have h := nextWeeklyOccurrence_repeating_isSome event now hrep
    exact Option.isSome_iff_exists.mp h
  · intro hnone
    by_contra hne
    have hrep : event.repeating = true := by
      cases h : event.repeating
      · exact absurd h hne
      · rfl
    have h := nextWeeklyOccurrence_repeating_isSome event now hrep
    rw [hnone] at h
    exact Bool.false_ne_true h

/-- Sample event used to discharge hypotheses of the claim theorems:
a repeating Monday event anchored at day 0 (a Monday), midnight, with a
single AT trigger. -/
def sampleEvent : Event :=
  { name := ['e'], id := some 1, day := .Monday, date := 0, time := 0,
    repeating := true, active := true,
    times := [{ minutes := 0, typeOfTrigger := .AT }] }

/-- Witness for C10: the theorem applied to a concrete repeating event. -/
theorem claim_C10_witness :
    ∃ r, nextWeeklyOccurrence sampleEvent 0 = some r :=
  (claim_C10_repeating_never_none sampleEvent 0).1 rfl

/-- C3: for a non-repeating event, `next_weekly_occurrence` returns the
anchor instant exactly when it is strictly after `now` or some enabled
trigger's truncated due time is strictly after `now`, and `None`
otherwise; in particular a past anchor with no future-due trigger yields
`None`. -/
theorem claim_C3_non_repeating (event : Event) (now : Int)
    (hrep : event.repeating = false) :
    nextWeeklyOccurrence event now =
      (if now < combine event.date event.time
          ∨ ∃ trig ∈ event.times, trig.enabled = true
              ∧ now < dueTime (combine event.date event.time) trig
        then some (combine event.date event.time) else none) := by
  have hbase : (hasFutureTrigger event (combine event.date event.time) now = true) ↔
      ∃ trig ∈ event.times, trig.enabled = true
        ∧ now < dueTime (combine event.date event.time) trig := by
    simp [hasFutureTrigger]
  unfold nextWeeklyOccurrence
  rw [hrep]
  simp only [Bool.not_false, if_true]
  by_cases h1 : now < combine event.date event.time
  · simp [h1]
  · by_cases h2 : hasFutureTrigger event (combine event.date event.time) now = true
    · simp [h1, h2, hbase.mp h2]
    · have h3 : ¬ ∃ trig ∈ event.times, trig.enabled = true
          ∧ now < dueTime (combine event.date event.time) trig :=
        fun hc => h2 (hbase.mpr hc)
      simp [h1, h2, h3]

/-- Concrete non-repeating event with a past anchor and a single AT
trigger, used as witness input. -/
def samplePastEvent : Event :=
  { name := ['p'], id := some 2, day := .Monday, date := 0, time := 0,
    repeating := false, active := true,
    times := [{ minutes := 0, typeOfTrigger := .AT }] }

/-- Witness for C3: a past-anchor non-repeating event with no future-due
trigger gets no occurrence one day later. -/
theorem claim_C3_witness : nextWeeklyOccurrence samplePastEvent usPerDay = none := by
  rw [claim_C3_non_repeating samplePastEvent usPerDay rfl]
  decide

/-- Every job produced by the expansion loop carries the expanded event
and occurrence, an enabled trigger taken from the scanned list with its
index, the truncated due time, and a due time strictly after `now`. -/
theorem pushJobsAux_mem (event : Event) (occurrence now : Int) :
    ∀ (idx : Nat) (ts : List TimeOfTrigger) (j : TriggerJob),
      j ∈ pushJobsAux event occurrence now idx ts →
      j.event = event ∧ j.occurrence = occurrence ∧ j.trigger.enabled = true ∧
      j.due = dueTime occurrence j.trigger ∧ now < j.due ∧
      ∃ k, ts[k]? = some j.trigger ∧ j.trigger_index = idx + k := by
  intro idx ts
  induction ts generalizing idx with
  | nil => intro j hj; simp [pushJobsAux] at hj
  | cons trig rest ih =>
    intro j hj
    unfold pushJobsAux at hj
    by_cases he : trig.enabled
    · rw [if_pos he] at hj
      by_cases hd : now < dueTime occurrence trig
      · rw [if_pos hd] at hj
        rcases List.mem_cons.mp hj with hj | hj
        · subst hj
          refine ⟨rfl, rfl, he, rfl, hd, 0, by simp, by simp⟩
        · obtain ⟨h1, h2, h3, h4, h5, k, hk, hidx⟩ := ih (idx + 1) j hj
          exact ⟨h1, h2, h3, h4, h5, k + 1, by simpa using hk, by omega⟩
      · rw [if_neg hd] at hj
        obtain ⟨h1, h2, h3, h4, h5, k, hk, hidx⟩ := ih (idx + 1) j hj
        exact ⟨h1, h2, h3, h4, h5, k + 1, by simpa using hk, by omega⟩
    · rw [if_neg he] at hj
      obtain ⟨h1, h2, h3, h4, h5, k, hk, hidx⟩ := ih (idx + 1) j hj
      exact ⟨h1, h2, h3, h4, h5, k + 1, by simpa using hk, by omega⟩

/-- Every enabled trigger with a future due time yields its job in the
expansion output. -/
theorem pushJobsAux_complete (event : Event) (occurrence now : Int) :
    ∀ (idx : Nat) (ts : List TimeOfTrigger) (k : Nat) (trig : TimeOfTrigger),
      ts[k]? = some trig → trig.enabled = true → now < dueTime occurrence trig →
      (⟨dueTime occurrence trig, event, occurrence, idx + k, trig⟩ : TriggerJob) ∈
        pushJobsAux event occurrence now idx ts := by
  intro idx ts
  induction ts generalizing idx with
  | nil => intro k trig hk; simp at hk
  | cons hd rest ih =>
    intro k trig hk he hd2
    unfold pushJobsAux
    match k, hk with
    | 0, hk =>
      have : hd = trig := by simpa using hk
      subst this
      rw [if_pos he, if_pos hd2]
      exact List.mem_cons_self _ _
    | k' + 1, hk =>
      have hk' : rest[k']? = some trig := by simpa using hk
      have hmem := ih (idx + 1) k' trig hk' he hd2
      have harith : idx + 1 + k' = idx + (k' + 1) := by omega
      rw [harith] at hmem
      by_cases he1 : hd.enabled
      · rw [if_pos he1]
        by_cases hd1 : now < dueTime occurrence hd
        · rw [if_pos hd1]; exact List.mem_cons_of_mem _ hmem
        · rw [if_neg hd1]; exact hmem
      · rw [if_neg he1]; exact hmem

/-- Expansion preserves the ascending signed-offset order of the trigger
list: jobs come out pairwise ordered by their trigger's `timer`. -/
theorem pushJobsAux_pairwise (event : Event) (occurrence now : Int) :
    ∀ (idx : Nat) (ts : List TimeOfTrigger),
      ts.Pairwise (fun a b => a.timer ≤ b.timer) →
      (pushJobsAux event occurrence now idx ts).Pairwise
        (fun a b => a.trigger.timer ≤ b.trigger.timer) := by
  intro idx ts
  induction ts generalizing idx with
  | nil => intro _; simp [pushJobsAux]
  | cons trig rest ih =>
    intro hp
    rw [List.pairwise_cons] at hp
    obtain ⟨hhead, htail⟩ := hp
    have htailJobs := ih (idx + 1) htail
    have hheadJobs : ∀ j ∈ pushJobsAux event occurrence now (idx + 1) rest,
        trig.timer ≤ j.trigger.timer := by
      intro j hj
      obtain ⟨-, -, -, -, -, k, hk, -⟩ := pushJobsAux_mem event occurrence now _ _ _ hj
      exact hhead j.trigger (List.getElem?_mem hk)
    unfold pushJobsAux
    by_cases he : trig.enabled
    · rw [if_pos he]
      by_cases hd : now < dueTime occurrence trig
      · rw [if_pos hd]
        exact List.pairwise_cons.mpr ⟨fun j hj => hheadJobs j hj, htailJobs⟩
      · rw [if_neg hd]; exact htailJobs
    · rw [if_neg he]; exact htailJobs

/-- The trigger-list sort performed in `Event.__init__`
(`self.times.sort()`, via `TimeOfTrigger.__lt__` comparing `timer`). -/
def sortTriggers (ts : List TimeOfTrigger) : List TimeOfTrigger :=
  ts.mergeSort fun a b => decide (a.timer ≤ b.timer)

/-- The constructor sort really produces an ascending-`timer` list. -/
theorem sortTriggers_pairwise (ts : List TimeOfTrigger) :
    (sortTriggers ts).Pairwise fun a b => a.timer ≤ b.timer := by
  have h := @List.sorted_mergeSort TimeOfTrigger
      (fun a b => decide (a.timer ≤ b.timer))
      (by intro a b c hab hbc; simp at *; omega)
      (by intro a b; simp; omega) ts
  exact h.imp (by intro a b hab; simpa using hab)

/-- C5: expansion appends to the queue exactly one job per enabled
trigger whose truncated due time `occurrence + signedOffset` is strictly
after `now`; disabled triggers are skipped, no job with `due ≤ now` is
produced, and a trigger list sorted ascending by signed offset (as the
`Event` constructor guarantees) yields jobs in that same ascending
order. -/
theorem claim_C5_expansion (heap : List TriggerJob) (event : Event) (occurrence now : Int) :
    pushTriggersForOccurrence heap event occurrence now =
      heap ++ pushJobsAux event occurrence now 0 event.times ∧
    (∀ j ∈ pushJobsAux event occurrence now 0 event.times,
      j.event = event ∧ j.occurrence = occurrence ∧ j.trigger.enabled = true ∧
      j.due = dueTime occurrence j.trigger ∧ now < j.due ∧
      event.times[j.trigger_index]? = some j.trigger) ∧
    (∀ (k : Nat) (trig : TimeOfTrigger), event.times[k]? = some trig →
      trig.enabled = true → now < dueTime occurrence trig →
      (⟨dueTime occurrence trig, event, occurrence, k, trig⟩ : TriggerJob) ∈
        pushJobsAux event occurrence now 0 event.times) ∧
    (event.times.Pairwise (fun a b => a.timer ≤ b.timer) →
      (pushJobsAux event occurrence now 0 event.times).Pairwise
        fun a b => a.trigger.timer ≤ b.trigger.timer) ∧
    (∀ ts : List TimeOfTrigger, (sortTriggers ts).Pairwise fun a b => a.timer ≤ b.timer) := by
  refine ⟨rfl, ?_, ?_, ?_, sortTriggers_pairwise⟩
  · intro j hj
    obtain ⟨h1, h2, h3, h4, h5, k, hk, hidx⟩ := pushJobsAux_mem event occurrence now _ _ _ hj
    refine ⟨h1, h2, h3, h4, h5, ?_⟩
    rw [hidx]
    simpa using hk
  · intro k trig hk he hd
    have := pushJobsAux_complete event occurrence now 0 event.times k trig hk he hd
    simpa using this
  · exact pushJobsAux_pairwise event occurrence now 0 event.times

/-- Witness for C5: the completeness clause applied to the sample event,
occurrence 0 and now just before it, produces the AT job. -/
theorem claim_C5_witness :
    (⟨dueTime 0 { minutes := 0, typeOfTrigger := .AT }, sampleEvent, 0, 0,
        { minutes := 0, typeOfTrigger := .AT }⟩ : TriggerJob) ∈
      pushJobsAux sampleEvent 0 (-1) 0 sampleEvent.times :=
  (claim_C5_expansion [] sampleEvent 0 (-1)).2.2.1 0
    { minutes := 0, typeOfTrigger := .AT } (by decide) (by decide) (by decide)

/-- Substring containment test, modelling Python `needle in haystack` on
strings. -/
def hasSubstring (needle : List Char) : List Char → Bool
  | [] => needle.isEmpty
  | c :: rest => needle.isPrefixOf (c :: rest) || hasSubstring needle rest

/-- The scheme/host marker the guard searches for, Python `'://'`. -/
def schemeMarker : List Char := [':', '/', '/']

/-- The fixed local API route marker `'/api/'`. -/
def apiRoutePre : List Char := ['/', 'a', 'p', 'i', '/']

/-- The string `'/api'` prepended to absolute paths. -/
def apiRoot : List Char := ['/', 'a', 'p', 'i']

/-- The canonical local URL base `'http://127.0.0.1:'`. -/
def localHostBase : List Char :=
  ['h', 't', 't', 'p', ':', '/', '/', '1', '2', '7', '.', '0', '.', '0', '.', '1', ':']

/-- The HTTP methods accepted by `_execute_internal_api_action`. -/
def allowedMethods : List (List Char) :=
  [['G', 'E', 'T'], ['P', 'O', 'S', 'T'], ['P', 'U', 'T'],
   ['P', 'A', 'T', 'C', 'H'], ['D', 'E', 'L', 'E', 'T', 'E']]

/-- The guard and URL construction of
`ClockScheduler._execute_internal_api_action`, taking the configured port
and the already-normalised method and stripped path.  The result is the
URL of the network request the dispatcher would attempt, or `none` when
the method is rejected, the path carries a scheme/host marker, or the
canonicalised path escapes the `/api/` route — all of which make the
source return `False` before any `requests.request` call.  The timeout
clamping and body injection of the source affect neither outcome. -/
def executeInternalApiAction (port : Int) (method path : List Char) : Option (List Char) :=
  if !(allowedMethods.contains method) then none
  else if hasSubstring schemeMarker path then none
  else
    let pathNorm :=
      if apiRoutePre.isPrefixOf path then path
      else if ['/'].isPrefixOf path then apiRoot ++ path
      else apiRoutePre ++ path.dropWhile (fun c => c == '/')
    if apiRoutePre.isPrefixOf pathNorm then
      some (localHostBase ++ (toString port).data ++ pathNorm)
    else none

/-- C2: an InternalCall whose path carries a scheme/host marker `'://'`
is rejected before any network attempt; every attempted request targets
`http://127.0.0.1:<port>` followed by a path under `'/api/'`; and the
concrete path `"https://evil/x"` is rejected. -/
theorem claim_C2_internal_call_sandbox :
    (∀ (port : Int) (method path : List Char), hasSubstring schemeMarker path = true →
      executeInternalApiAction port method path = none) ∧
    (∀ (port : Int) (method path url : List Char),
      executeInternalApiAction port method path = some url →
      ∃ rest, url = localHostBase ++ (toString port).data ++ rest ∧ apiRoutePre <+: rest) ∧
    executeInternalApiAction 5000 ['P', 'O', 'S', 'T']
      ['h', 't', 't', 'p', 's', ':', '/', '/', 'e', 'v', 'i', 'l', '/', 'x'] = none := by
  refine ⟨?_, ?_, by decide⟩
  · intro port method path hmark
    unfold executeInternalApiAction
    by_cases hm : allowedMethods.contains method
    · rw [hm, hmark]
      rfl
    · rw [Bool.not_eq_true] at hm
      rw [hm]
      rfl
  · intro port method path url hurl
    unfold executeInternalApiAction at hurl
    by_cases hm : allowedMethods.contains method
    · rw [hm] at hurl
      simp only [Bool.not_true, Bool.false_eq_true, if_false] at hurl
      by_cases hmark : hasSubstring schemeMarker path
      · rw [if_pos hmark] at hurl
        exact absurd hurl (by simp)
      · rw [if_neg hmark] at hurl
        set pathNorm :=
          if apiRoutePre.isPrefixOf path then path
          else if ['/'].isPrefixOf path then apiRoot ++ path
          else apiRoutePre ++ path.dropWhile (fun c => c == '/') with hdef
        by_cases hpre : apiRoutePre.isPrefixOf pathNorm
        · rw [if_pos hpre] at hurl
          refine ⟨pathNorm, ?_, List.isPrefixOf_iff_prefix.mp hpre⟩
          exact (Option.some_inj.mp hurl).symm
        · rw [if_neg hpre] at hurl
          exact absurd hurl (by simp)
    · rw [Bool.not_eq_true] at hm
      rw [hm] at hurl
      exact absurd hurl (by simp)

/-- Witness for C2: the scheme-marker rejection clause at a concrete
input. -/
theorem claim_C2_witness :
    executeInternalApiAction 80 ['G', 'E', 'T'] ['a', ':', '/', '/', 'b'] = none :=
  claim_C2_internal_call_sandbox.1 80 ['G', 'E', 'T'] ['a', ':', '/', '/', 'b'] (by decide)

/-- Outcome of one companion dispatch attempt in `_handle_trigger`:
`post_command` succeeded, `post_command` failed, or the client was not
connected in the first place. -/
inductive CompanionResult
  | postOk
  | postFail
  | notConnected
deriving DecidableEq

/-- Connectivity-transition log lines `_handle_trigger` can print:
the reconnected notice, or one of the two went-offline notices
(`"appears unreachable"` / `"not connected"`). -/
inductive CompanionLine
  | reconnected
  | wentOffline
deriving DecidableEq

/-- The connectivity bookkeeping of `ClockScheduler._handle_trigger`
(companion branch): given the current `_companion_down` flag and the
attempt outcome, the new flag and the transition lines printed. -/
def handleCompanionStep (companionDown : Bool) (result : CompanionResult) :
    Bool × List CompanionLine :=
  match result with
  | .postOk => if companionDown then (false, [.reconnected]) else (false, [])
  | .postFail => if !companionDown then (true, [.wentOffline]) else (true, [])
  | .notConnected => if !companionDown then (true, [.wentOffline]) else (true, [])

/-- Folding `_handle_trigger`'s connectivity bookkeeping over a sequence
of dispatch outcomes, collecting all transition lines. -/
def runCompanionSteps (companionDown : Bool) : List CompanionResult → Bool × List CompanionLine
  | [] => (companionDown, [])
  | r :: rest =>
    let step := handleCompanionStep companionDown r
    let restRun := runCompanionSteps step.1 rest
    (restRun.1, step.2 ++ restRun.2)

/-- Number of up-to-down flips of the tracked connectivity state along a
sequence of outcomes (spec-side counting of offline transitions). -/
def downFlips (companionDown : Bool) : List CompanionResult → Nat
  | [] => 0
  | r :: rest =>
    let d1 := (handleCompanionStep companionDown r).1
    (if companionDown = false ∧ d1 = true then 1 else 0) + downFlips d1 rest

/-- Number of down-to-up flips of the tracked connectivity state along a
sequence of outcomes (spec-side counting of reconnect transitions). -/
def upFlips (companionDown : Bool) : List CompanionResult → Nat
  | [] => 0
  | r :: rest =>
    let d1 := (handleCompanionStep companionDown r).1
    (if companionDown = true ∧ d1 = false then 1 else 0) + upFlips d1 rest

/-- C7: went-offline lines are printed exactly at up-to-down flips of the
tracked state and reconnected lines exactly at down-to-up flips; three
consecutive failures from the up state print exactly one went-offline
line. -/
theorem claim_C7_connectivity_transitions :
    (∀ (companionDown : Bool) (results : List CompanionResult),
      ((runCompanionSteps companionDown results).2.countP
          (fun l => decide (l = .wentOffline)) = downFlips companionDown results) ∧
      ((runCompanionSteps companionDown results).2.countP
          (fun l => decide (l = .reconnected)) = upFlips companionDown results)) ∧
    (runCompanionSteps false [.postFail, .postFail, .postFail]).2 = [.wentOffline] := by
  refine ⟨?_, by decide⟩
  intro companionDown results
  induction results generalizing companionDown with
  | nil => simp [runCompanionSteps, downFlips, upFlips]
  | cons r rest ih =>
    obtain ⟨ih1, ih2⟩ := ih (handleCompanionStep companionDown r).1
    constructor
    · show ((handleCompanionStep companionDown r).2 ++
          (runCompanionSteps (handleCompanionStep companionDown r).1 rest).2).countP _ = _
      rw [List.countP_append, ih1]
      show _ = (if companionDown = false ∧ (handleCompanionStep companionDown r).1 = true
          then 1 else 0) + downFlips (handleCompanionStep companionDown r).1 rest
      cases r <;> cases companionDown <;> simp [handleCompanionStep]
    · show ((handleCompanionStep companionDown r).2 ++
          (runCompanionSteps (handleCompanionStep companionDown r).1 rest).2).countP _ = _
      rw [List.countP_append, ih2]
      show _ = (if companionDown = true ∧ (handleCompanionStep companionDown r).1 = false
          then 1 else 0) + upFlips (handleCompanionStep companionDown r).1 rest
      cases r <;> cases companionDown <;> simp [handleCompanionStep]

/-- The job-queue rebuild of `ClockScheduler._rebuild_schedule`: fold the
loaded events, skipping inactive ones, computing each occurrence via
`next_weekly_occurrence` and expanding it via
`push_triggers_for_occurrence`; `heapify` leaves the contents unchanged. -/
def rebuildSchedule (events : List Event) (now : Int) : List TriggerJob :=
  events.foldl
    (fun heap ev =>
      if !ev.active then heap
      else
        match nextWeeklyOccurrence ev now with
        | some occ => pushTriggersForOccurrence heap ev occ now
        | none => heap)
    []

/-- The ordered due-time sequence observable from the queue
(`sorted(self._heap)`, which compares jobs by `due` alone, then reading
each job's `due`). -/
def sortedDueSeq (heap : List TriggerJob) : List Int :=
  (heap.mergeSort TriggerJob.le).map TriggerJob.due

/-- Any two queues with the same job contents expose the same ordered
due-time sequence. -/
theorem sortedDueSeq_perm (h1 h2 : List TriggerJob) (hperm : h1.Perm h2) :
    sortedDueSeq h1 = sortedDueSeq h2 := by
  have hs1 := @List.sorted_mergeSort TriggerJob TriggerJob.le
    (by intro a b c hab hbc; simp [TriggerJob.le] at *; omega)
    (by intro a b; simp [TriggerJob.le]; omega) h1
  have hs2 := @List.sorted_mergeSort TriggerJob TriggerJob.le
    (by intro a b c hab hbc; simp [TriggerJob.le] at *; omega)
    (by intro a b; simp [TriggerJob.le]; omega) h2
  have hmap1 : (sortedDueSeq h1).Sorted (· ≤ ·) :=
    List.pairwise_map.mpr (hs1.imp (by intro a b hab; simpa [TriggerJob.le] using hab))
  have hmap2 : (sortedDueSeq h2).Sorted (· ≤ ·) :=
    List.pairwise_map.mpr (hs2.imp (by intro a b hab; simpa [TriggerJob.le] using hab))
  have hp : (sortedDueSeq h1).Perm (sortedDueSeq h2) :=
    (((h1.mergeSort_perm TriggerJob.le).trans hperm).trans
      (h2.mergeSort_perm TriggerJob.le).symm).map TriggerJob.due
  exact List.eq_of_perm_of_sorted hp hmap1 hmap2

/-- C9: the rebuild is a pure function of the event list and `now`, so
any two rebuilds from the same inputs (whatever internal heap
arrangement each ends up with) expose the same ordered due-time
sequence; and the `TriggerJob` ordering compares `due` alone, leaving
event, occurrence, trigger index and trigger out of the comparison. -/
theorem claim_C9_rebuild_deterministic :
    (∀ (events : List Event) (now : Int) (h1 h2 : List TriggerJob),
      h1.Perm (rebuildSchedule events now) → h2.Perm (rebuildSchedule events now) →
      sortedDueSeq h1 = sortedDueSeq h2) ∧
    (∀ a b : TriggerJob, TriggerJob.lt a b = true ↔ a.due < b.due) ∧
    (∀ a b : TriggerJob, a.due = b.due →
      TriggerJob.lt a b = false ∧ TriggerJob.lt b a = false) := by
  refine ⟨?_, ?_, ?_⟩
  · intro events now h1 h2 hp1 hp2
    exact sortedDueSeq_perm h1 h2 (hp1.trans hp2.symm)
  · intro a b
    simp [TriggerJob.lt]
  · intro a b hdue
    constructor <;> simp [TriggerJob.lt] <;> omega

/-- Witness for C9: two rebuilds from one sample event agree on the
ordered due-time sequence. -/
theorem claim_C9_witness :
    sortedDueSeq (rebuildSchedule [sampleEvent] (-1)) =
      sortedDueSeq (rebuildSchedule [sampleEvent] (-1)) :=
  claim_C9_rebuild_deterministic.1 [sampleEvent] (-1) _ _
    (List.Perm.refl _) (List.Perm.refl _)

/-- Enum values of `WeekDay` lie in 1..7. -/
theorem weekday_value_bounds (d : WeekDay) : 1 ≤ d.value ∧ d.value ≤ 7 := by
  cases d <;> simp [WeekDay.value]

/-- The `last_date` local of `next_weekly_occurrence`'s repeating branch:
most recent date with the configured weekday on/before today, clamped to
the first such date on/after the anchor date. -/
def lastDateFor (event : Event) (now : Int) : Int :=
  let lastDate0 := dateOf now - (weekday (dateOf now) - (event.day.value - 1)) % 7
  if lastDate0 < firstDateFor event then firstDateFor event else lastDate0

/-- The repeating branch of `next_weekly_occurrence`, written through
`lastDateFor`. -/
theorem nextWeeklyOccurrence_repeating_eq (event : Event) (now : Int)
    (hrep : event.repeating = true) :
    nextWeeklyOccurrence event now =
      (if now < combine (lastDateFor event now) event.time
        then some (combine (lastDateFor event now) event.time)
        else if hasFutureTrigger event (combine (lastDateFor event now) event.time) now
          then some (combine (lastDateFor event now) event.time)
        else some (combine (lastDateFor event now) event.time + 7 * usPerDay)) := by
  unfold nextWeeklyOccurrence lastDateFor
  rw [hrep]
  rfl

/-- C4: for a repeating event, the result is built from the most recent
date `mr` with the event's weekday on/before now's date, clamped below by
the first such date `fd` on/after the anchor date (`max mr fd`), combined
with the anchor time: that instant if still in the future, else that
instant if an enabled trigger's due time is still in the future, else
that instant plus 7 days. -/
theorem claim_C4_repeating (event : Event) (now : Int) (hrep : event.repeating = true) :
    ∃ mr fd : Int,
      weekday mr = event.day.value - 1 ∧ mr ≤ dateOf now ∧ dateOf now - mr < 7 ∧
      weekday fd = event.day.value - 1 ∧ event.date ≤ fd ∧ fd - event.date < 7 ∧
      nextWeeklyOccurrence event now =
        (if now < combine (max mr fd) event.time then some (combine (max mr fd) event.time)
          else if hasFutureTrigger event (combine (max mr fd) event.time) now
            then some (combine (max mr fd) event.time)
          else some (combine (max mr fd) event.time + 7 * usPerDay)) := by
  have hv := weekday_value_bounds event.day
  refine ⟨dateOf now - (weekday (dateOf now) - (event.day.value - 1)) % 7, firstDateFor event,
    ?_, ?_, ?_, ?_, ?_, ?_, ?_⟩
  · simp only [weekday]; omega
  · simp only [weekday]; omega
  · simp only [weekday]; omega
  · simp only [firstDateFor, weekday]; omega
  · simp only [firstDateFor, weekday]; omega
  · simp only [firstDateFor, weekday]; omega
  · rw [nextWeeklyOccurrence_repeating_eq event now hrep]
    have hmax : lastDateFor event now =
        max (dateOf now - (weekday (dateOf now) - (event.day.value - 1)) % 7)
          (firstDateFor event) := by
      unfold lastDateFor
      rcases lt_or_le (dateOf now - (weekday (dateOf now) - (event.day.value - 1)) % 7)
          (firstDateFor event) with h | h
      · rw [if_pos h, max_eq_right h.le]
      · rw [if_neg (not_lt.mpr h), max_eq_left h]
    rw [hmax]

/-- Witness for C4: the characterisation applied to the sample repeating
event at now = 0. -/
theorem claim_C4_witness :
    ∃ mr fd : Int,
      weekday mr = sampleEvent.day.value - 1 ∧ mr ≤ dateOf 0 ∧ dateOf 0 - mr < 7 ∧
      weekday fd = sampleEvent.day.value - 1 ∧ sampleEvent.date ≤ fd ∧
      fd - sampleEvent.date < 7 ∧
      nextWeeklyOccurrence sampleEvent 0 =
        (if (0 : Int) < combine (max mr fd) sampleEvent.time
          then some (combine (max mr fd) sampleEvent.time)
          else if hasFutureTrigger sampleEvent (combine (max mr fd) sampleEvent.time) 0
            then some (combine (max mr fd) sampleEvent.time)
          else some (combine (max mr fd) sampleEvent.time + 7 * usPerDay)) :=
  claim_C4_repeating sampleEvent 0 rfl

/-- Maximum BEFORE-offset among an event's triggers, as a duration
(spec-side quantity named by the claimed lower bound). -/
def maxBeforeOffsetUs (event : Event) : Int :=
  event.times.foldl
    (fun acc t =>
      match t.typeOfTrigger with
      | .BEFORE => max acc (t.minutes * usPerMin)
      | _ => acc)
    0

/-- Repeating Monday event whose only trigger is AFTER 20000 minutes,
violating the claimed `now - 6 days - maxBEFORE` lower bound. -/
def c6Event : Event :=
  { name := ['c'], id := some 6, day := .Monday, date := 0, time := 0,
    repeating := true, active := true,
    times := [{ minutes := 20000, typeOfTrigger := .AFTER }] }

/-- A Sunday-evening instant six days and almost a full day after the
`c6Event` anchor occurrence. -/
def c6Now : Int := 6 * usPerDay + 86399 * usPerSec

/-- C6 counterexample: for `c6Event` at `c6Now` the recurrence calculator
returns the Monday occurrence at instant 0, which lies strictly below
`now - 6 days - maxBeforeOffset` (the event has no BEFORE trigger, so the
claimed bound demands `r ≥ now - 6 days`); the claimed lower bound is
false. -/
theorem claim_C6_counterexample :
    nextWeeklyOccurrence c6Event c6Now = some 0 ∧
    (0 : Int) < c6Now - 6 * usPerDay - maxBeforeOffsetUs c6Event := by
  constructor
  · decide
  · decide

/-- C6 amended: for every repeating event the returned instant falls on
the configured weekday, and is strictly greater than `now - 7 days`
(the claimed `now - 6 days - maxBEFORE` bound fails once an enabled
AFTER trigger reaches far enough past the 6-day slack). -/
theorem claim_C6_amended (event : Event) (now : Int)
    (hrep : event.repeating = true) (ht0 : 0 ≤ event.time) (ht1 : event.time < usPerDay) :
    ∃ r, nextWeeklyOccurrence event now = some r ∧
      weekday (dateOf r) = event.day.value - 1 ∧
      now - 7 * usPerDay < r := by
  have hv := weekday_value_bounds event.day
  have hLlow : dateOf now - 6 ≤ lastDateFor event now := by
    simp only [lastDateFor, firstDateFor, weekday]
    split <;> omega
  have hLwd : lastDateFor event now % 7 = event.day.value - 1 := by
    simp only [lastDateFor, firstDateFor, weekday]
    split <;> omega
  rw [nextWeeklyOccurrence_repeating_eq event now hrep]
  simp only [usPerDay] at ht1
  simp only [dateOf, usPerDay] at hLlow
  by_cases h1 : now < combine (lastDateFor event now) event.time
  · rw [if_pos h1]
    refine ⟨_, rfl, ?_, ?_⟩
    · simp only [weekday, dateOf, combine, usPerDay]
      omega
    · simp only [combine, usPerDay]
      omega
  · rw [if_neg h1]
    by_cases h2 : hasFutureTrigger event (combine (lastDateFor event now) event.time) now
    · rw [if_pos h2]
      refine ⟨_, rfl, ?_, ?_⟩
      · simp only [weekday, dateOf, combine, usPerDay]
        omega
      · simp only [combine, usPerDay]
        omega
    · rw [if_neg h2]
      refine ⟨_, rfl, ?_, ?_⟩
      · simp only [weekday, dateOf, combine, usPerDay]
        omega
      · simp only [combine, usPerDay]
        omega

/-- Witness for C6's amended theorem: applied to the counterexample event
and instant. -/
theorem claim_C6_witness :
    ∃ r, nextWeeklyOccurrence c6Event c6Now = some r ∧
      weekday (dateOf r) = c6Event.day.value - 1 ∧
      c6Now - 7 * usPerDay < r :=
  claim_C6_amended c6Event c6Now rfl (by decide) (by decide)

/-- The `heapq.heappop` of the firing loop, on heap contents: removes the
earliest-listed job of minimal `due`. -/
def popMinDue : List TriggerJob → Option (TriggerJob × List TriggerJob)
  | [] => none
  | j :: rest =>
    match popMinDue rest with
    | none => some (j, [])
    | some (m, rest') => if j.due ≤ m.due then some (j, rest) else some (m, j :: rest')

/-- Popping yields nothing exactly on the empty heap. -/
theorem popMinDue_none_iff (heap : List TriggerJob) : popMinDue heap = none ↔ heap = [] := by
  cases heap with
  | nil => simp [popMinDue]
  | cons j rest =>
    constructor
    · intro h
      exfalso
      simp only [popMinDue] at h
      cases htl : popMinDue rest with
      | none =>
        rw [htl] at h
        simp at h
      | some p =>
        obtain ⟨m, rest'⟩ := p
        rw [htl] at h
        dsimp only at h
        by_cases hle : j.due ≤ m.due
        · rw [if_pos hle] at h; simp at h
        · rw [if_neg hle] at h; simp at h
    · intro h
      simp at h

/-- Popping removes exactly one job from the heap contents. -/
theorem popMinDue_perm (heap : List TriggerJob) :
    ∀ {job : TriggerJob} {rest : List TriggerJob},
      popMinDue heap = some (job, rest) → (job :: rest).Perm heap := by
  induction heap with
  | nil => intro job rest h; simp [popMinDue] at h
  | cons j tl ih =>
    intro job rest h
    simp only [popMinDue] at h
    cases htl : popMinDue tl with
    | none =>
      rw [htl] at h
      dsimp only at h
      obtain ⟨rfl, rfl⟩ : j = job ∧ [] = rest := by simpa using h
      have htlnil : tl = [] := (popMinDue_none_iff tl).mp htl
      rw [htlnil]
    | some p =>
      obtain ⟨m, rest'⟩ := p
      rw [htl] at h
      dsimp only at h
      by_cases hle : j.due ≤ m.due
      · rw [if_pos hle] at h
        obtain ⟨rfl, rfl⟩ : j = job ∧ tl = rest := by simpa using h
        exact List.Perm.refl _
      · rw [if_neg hle] at h
        obtain ⟨rfl, rfl⟩ : m = job ∧ j :: rest' = rest := by simpa using h
        exact (List.Perm.swap j m rest').trans ((ih htl).cons j)

/-- The popped job has minimal `due` among the heap contents. -/
theorem popMinDue_min (heap : List TriggerJob) :
    ∀ {job : TriggerJob} {rest : List TriggerJob},
      popMinDue heap = some (job, rest) → ∀ k ∈ heap, job.due ≤ k.due := by
  induction heap with
  | nil => intro job rest h; simp [popMinDue] at h
  | cons j tl ih =>
    intro job rest h k hk
    simp only [popMinDue] at h
    cases htl : popMinDue tl with
    | none =>
      rw [htl] at h
      dsimp only at h
      obtain ⟨rfl, -⟩ : j = job ∧ [] = rest := by simpa using h
      have htlnil : tl = [] := (popMinDue_none_iff tl).mp htl
      subst htlnil
      rcases List.mem_cons.mp hk with rfl | hk2
      · exact le_refl _
      · simp at hk2
    | some p =>
      obtain ⟨m, rest'⟩ := p
      rw [htl] at h
      dsimp only at h
      by_cases hle : j.due ≤ m.due
      · rw [if_pos hle] at h
        obtain ⟨rfl, -⟩ : j = job ∧ tl = rest := by simpa using h
        rcases List.mem_cons.mp hk with rfl | hk2
        · exact le_refl _
        · exact le_trans hle (ih htl k hk2)
      · rw [if_neg hle] at h
        obtain ⟨rfl, -⟩ : m = job ∧ j :: rest' = rest := by simpa using h
        rcases List.mem_cons.mp hk with rfl | hk2
        · exact le_of_lt (lt_of_not_le hle)
        · exact ih htl k hk2

/-- The pending-occurrence scan of `_run_forever`: some job in the heap
shares the fired job's `(event, occurrence)` pair (`j.event is job.event
and j.occurrence == job.occurrence`). -/
def stillPending (heap : List TriggerJob) (job : TriggerJob) : Bool :=
  heap.any fun j => decide (j.event = job.event ∧ j.occurrence = job.occurrence)

/-- The per-job reschedule block closing `_run_forever`'s firing loop:
for a fired job of a repeating event whose occurrence no longer has a
pending job, recompute the next occurrence from `occurrence + 1 second`
and, when present, expand its triggers; returns the new heap contents and
the list of reschedules performed (each recorded as the event and the
drained occurrence). -/
def rescheduleAfterFire (heap : List TriggerJob) (job : TriggerJob) (now : Int) :
    List TriggerJob × List (Event × Int) :=
  if job.event.repeating then
    if stillPending heap job then (heap, [])
    else
      match nextWeeklyOccurrence job.event (job.occurrence + usPerSec) with
      | some nextOcc =>
        (pushTriggersForOccurrence heap job.event nextOcc now, [(job.event, job.occurrence)])
      | none => (heap, [])
  else (heap, [])

/-- Jobs in the post-reschedule heap either were already present or are
freshly pushed jobs of the fired job's event, due strictly after `now`. -/
theorem mem_rescheduleAfterFire {heap : List TriggerJob} {job : TriggerJob} {now : Int}
    {j : TriggerJob} (hj : j ∈ (rescheduleAfterFire heap job now).1) :
    j ∈ heap ∨ (j.event = job.event ∧ now < j.due) := by
  unfold rescheduleAfterFire at hj
  by_cases hr : job.event.repeating
  · rw [if_pos hr] at hj
    by_cases hp : stillPending heap job
    · rw [if_pos hp] at hj
      exact Or.inl hj
    · rw [if_neg hp] at hj
      cases hn : nextWeeklyOccurrence job.event (job.occurrence + usPerSec) with
      | none => rw [hn] at hj; exact Or.inl hj
      | some nextOcc =>
        rw [hn] at hj
        rcases List.mem_append.mp hj with hj1 | hj2
        · exact Or.inl hj1
        · obtain ⟨h1, -, -, -, h5, -⟩ := pushJobsAux_mem job.event nextOcc now _ _ _ hj2
          exact Or.inr ⟨h1, h5⟩
  · rw [if_neg hr] at hj
    exact Or.inl hj

/-- The reschedule block never removes a job from the heap. -/
theorem subset_rescheduleAfterFire (heap : List TriggerJob) (job : TriggerJob) (now : Int) :
    ∀ j ∈ heap, j ∈ (rescheduleAfterFire heap job now).1 := by
  intro j hj
  unfold rescheduleAfterFire
  by_cases hr : job.event.repeating
  · rw [if_pos hr]
    by_cases hp : stillPending heap job
    · rw [if_pos hp]; exact hj
    · rw [if_neg hp]
      cases hn : nextWeeklyOccurrence job.event (job.occurrence + usPerSec) with
      | none => exact hj
      | some nextOcc => exact List.mem_append_left _ hj
  · rw [if_neg hr]; exact hj

/-- The reschedule block performs zero or one reschedule, recorded with
the fired job's event and occurrence. -/
theorem rescheduleAfterFire_records (heap : List TriggerJob) (job : TriggerJob) (now : Int) :
    (rescheduleAfterFire heap job now).2 = [] ∨
    (rescheduleAfterFire heap job now).2 = [(job.event, job.occurrence)] := by
  unfold rescheduleAfterFire
  by_cases hr : job.event.repeating
  · rw [if_pos hr]
    by_cases hp : stillPending heap job
    · rw [if_pos hp]; exact Or.inl rfl
    · rw [if_neg hp]
      cases hn : nextWeeklyOccurrence job.event (job.occurrence + usPerSec) with
      | none => exact Or.inl rfl
      | some nextOcc => exact Or.inr rfl
  · rw [if_neg hr]; exact Or.inl rfl

/-- Freshly expanded jobs never count as already due. -/
theorem pushJobsAux_filter_due (event : Event) (occurrence now : Int) (idx : Nat)
    (ts : List TimeOfTrigger) :
    (pushJobsAux event occurrence now idx ts).filter (fun j => decide (j.due ≤ now)) = [] := by
  rw [List.filter_eq_nil_iff]
  intro j hj
  obtain ⟨-, -, -, -, h5, -⟩ := pushJobsAux_mem event occurrence now _ _ _ hj
  simp only [decide_eq_true_eq]
  omega

/-- The reschedule block leaves the already-due portion of the heap
untouched. -/
theorem rescheduleAfterFire_filter_due (heap : List TriggerJob) (job : TriggerJob) (now : Int) :
    ((rescheduleAfterFire heap job now).1).filter (fun j => decide (j.due ≤ now)) =
      heap.filter fun j => decide (j.due ≤ now) := by
  unfold rescheduleAfterFire
  by_cases hr : job.event.repeating
  · rw [if_pos hr]
    by_cases hp : stillPending heap job
    · rw [if_pos hp]
    · rw [if_neg hp]
      cases hn : nextWeeklyOccurrence job.event (job.occurrence + usPerSec) with
      | none => rfl
      | some nextOcc =>
        show (pushTriggersForOccurrence heap job.event nextOcc now).filter _ = _
        unfold pushTriggersForOccurrence
        rw [List.filter_append, pushJobsAux_filter_due, List.append_nil]
  · rw [if_neg hr]

/-- The reschedule block preserves the number of already-due jobs. -/
theorem rescheduleAfterFire_countP_due (heap : List TriggerJob) (job : TriggerJob) (now : Int) :
    ((rescheduleAfterFire heap job now).1).countP (fun j => decide (j.due ≤ now)) =
      heap.countP fun j => decide (j.due ≤ now) := by
  rw [List.countP_eq_length_filter, List.countP_eq_length_filter,
    rescheduleAfterFire_filter_due]

/-- Jobs in the post-expansion heap either were already present or are
fresh jobs of the expanded event due strictly after `now`. -/
theorem mem_pushTriggersForOccurrence {heap : List TriggerJob} {event : Event}
    {occurrence now : Int} {j : TriggerJob}
    (hj : j ∈ pushTriggersForOccurrence heap event occurrence now) :
    j ∈ heap ∨ (j.event = event ∧ now < j.due) := by
  rcases List.mem_append.mp hj with h | h
  · exact Or.inl h
  · obtain ⟨h1, -, -, -, h5, -⟩ := pushJobsAux_mem event occurrence now _ _ _ h
    exact Or.inr ⟨h1, h5⟩

/-- Outcome of `_handle_trigger` for one job as the firing loop observes
it: success, dispatch failure, or a raised exception — which the loop's
`try/except` catches and logs before continuing. -/
inductive DispatchOutcome
  | ok
  | fail
  | raised
deriving DecidableEq

/-- Result of draining the due jobs: final heap contents, the fired jobs
with their outcomes in firing order, and the reschedules performed. -/
structure FireResult where
  heap : List TriggerJob
  fired : List (TriggerJob × DispatchOutcome)
  resched : List (Event × Int)
deriving DecidableEq

/-- The firing phase of `_run_forever`: repeatedly pop the minimum-due
job while its due time has passed, handle it (outcomes abstracted by the
`outcome` oracle; the handler's result and exceptions never influence the
queue), then run the reschedule block.  Fuel bounds the iteration count;
any `fuel ≥` the number of already-due jobs drains them all, since every
job pushed mid-drain is due strictly after `now`. -/
def fireDueJobs (outcome : TriggerJob → DispatchOutcome) :
    Nat → List TriggerJob → Int → FireResult
  | 0, heap, _ => ⟨heap, [], []⟩
  | fuel + 1, heap, now =>
    match popMinDue heap with
    | none => ⟨heap, [], []⟩
    | some (job, rest) =>
      if now < job.due then ⟨heap, [], []⟩
      else
        ⟨(fireDueJobs outcome fuel (rescheduleAfterFire rest job now).1 now).heap,
         (job, outcome job) ::
           (fireDueJobs outcome fuel (rescheduleAfterFire rest job now).1 now).fired,
         (rescheduleAfterFire rest job now).2 ++
           (fireDueJobs outcome fuel (rescheduleAfterFire rest job now).1 now).resched⟩

/-- Drain equation: empty heap. -/
theorem fireDueJobs_none (outcome : TriggerJob → DispatchOutcome) (fuel : Nat)
    (heap : List TriggerJob) (now : Int) (hpop : popMinDue heap = none) :
    fireDueJobs outcome (fuel + 1) heap now = ⟨heap, [], []⟩ := by
  simp only [fireDueJobs]
  rw [hpop]

/-- Drain equation: minimum job still in the future. -/
theorem fireDueJobs_stop (outcome : TriggerJob → DispatchOutcome) (fuel : Nat)
    (heap : List TriggerJob) (now : Int) (job : TriggerJob) (rest : List TriggerJob)
    (hpop : popMinDue heap = some (job, rest)) (hdue : now < job.due) :
    fireDueJobs outcome (fuel + 1) heap now = ⟨heap, [], []⟩ := by
  simp only [fireDueJobs]
  rw [hpop]
  dsimp only
  rw [if_pos hdue]

/-- Drain equation: fire the minimum job and continue. -/
theorem fireDueJobs_step (outcome : TriggerJob → DispatchOutcome) (fuel : Nat)
    (heap : List TriggerJob) (now : Int) (job : TriggerJob) (rest : List TriggerJob)
    (hpop : popMinDue heap = some (job, rest)) (hdue : ¬ now < job.due) :
    fireDueJobs outcome (fuel + 1) heap now =
      ⟨(fireDueJobs outcome fuel (rescheduleAfterFire rest job now).1 now).heap,
       (job, outcome job) ::
         (fireDueJobs outcome fuel (rescheduleAfterFire rest job now).1 now).fired,
       (rescheduleAfterFire rest job now).2 ++
         (fireDueJobs outcome fuel (rescheduleAfterFire rest job now).1 now).resched⟩ := by
  simp only [fireDueJobs]
  rw [hpop]
  dsimp only
  rw [if_neg hdue]

/-- The queue evolution and the fired-job sequence never depend on the
dispatch outcomes (including caught exceptions). -/
theorem fireDueJobs_outcome_irrelevant (f g : TriggerJob → DispatchOutcome) (fuel : Nat) :
    ∀ (heap : List TriggerJob) (now : Int),
      (fireDueJobs f fuel heap now).heap = (fireDueJobs g fuel heap now).heap ∧
      (fireDueJobs f fuel heap now).fired.map Prod.fst =
        (fireDueJobs g fuel heap now).fired.map Prod.fst ∧
      (fireDueJobs f fuel heap now).resched = (fireDueJobs g fuel heap now).resched := by
  induction fuel with
  | zero => intro heap now; exact ⟨rfl, rfl, rfl⟩
  | succ fuel ih =>
    intro heap now
    cases hpop : popMinDue heap with
    | none =>
      rw [fireDueJobs_none f fuel heap now hpop, fireDueJobs_none g fuel heap now hpop]
      exact ⟨rfl, rfl, rfl⟩
    | some p =>
      obtain ⟨job, rest⟩ := p
      by_cases hdue : now < job.due
      · rw [fireDueJobs_stop f fuel heap now job rest hpop hdue,
          fireDueJobs_stop g fuel heap now job rest hpop hdue]
        exact ⟨rfl, rfl, rfl⟩
      · rw [fireDueJobs_step f fuel heap now job rest hpop hdue,
          fireDueJobs_step g fuel heap now job rest hpop hdue]
        obtain ⟨ih1, ih2, ih3⟩ := ih (rescheduleAfterFire rest job now).1 now
        exact ⟨ih1, by simpa using ih2, by simp only [ih3]⟩

/-- Every fired job was due at drain time. -/
theorem fireDueJobs_fired_due (f : TriggerJob → DispatchOutcome) (fuel : Nat) :
    ∀ (heap : List TriggerJob) (now : Int),
      ∀ p ∈ (fireDueJobs f fuel heap now).fired, p.1.due ≤ now := by
  induction fuel with
  | zero => intro heap now p hp; simp [fireDueJobs] at hp
  | succ fuel ih =>
    intro heap now p hp
    cases hpop : popMinDue heap with
    | none => rw [fireDueJobs_none f fuel heap now hpop] at hp; simp at hp
    | some q =>
      obtain ⟨job, rest⟩ := q
      by_cases hdue : now < job.due
      · rw [fireDueJobs_stop f fuel heap now job rest hpop hdue] at hp; simp at hp
      · rw [fireDueJobs_step f fuel heap now job rest hpop hdue] at hp
        rcases List.mem_cons.mp hp with rfl | hp2
        · show job.due ≤ now
          omega
        · exact ih (rescheduleAfterFire rest job now).1 now p hp2

/-- Every job left in the heap after the drain either was there at the
start or is a freshly pushed job due strictly after `now`; in particular
no popped (hence due) job is ever re-enqueued. -/
theorem fireDueJobs_heap_mem (f : TriggerJob → DispatchOutcome) (fuel : Nat) :
    ∀ (heap : List TriggerJob) (now : Int) (j : TriggerJob),
      j ∈ (fireDueJobs f fuel heap now).heap → j ∈ heap ∨ now < j.due := by
  induction fuel with
  | zero => intro heap now j hj; exact Or.inl hj
  | succ fuel ih =>
    intro heap now j hj
    cases hpop : popMinDue heap with
    | none => rw [fireDueJobs_none f fuel heap now hpop] at hj; exact Or.inl hj
    | some q =>
      obtain ⟨job, rest⟩ := q
      by_cases hdue : now < job.due
      · rw [fireDueJobs_stop f fuel heap now job rest hpop hdue] at hj; exact Or.inl hj
      · rw [fireDueJobs_step f fuel heap now job rest hpop hdue] at hj
        rcases ih (rescheduleAfterFire rest job now).1 now j hj with hj2 | hj2
        · rcases mem_rescheduleAfterFire hj2 with hj3 | ⟨-, hj3⟩
          · exact Or.inl ((popMinDue_perm heap hpop).subset (List.mem_cons_of_mem _ hj3))
          · exact Or.inr hj3
        · exact Or.inr hj2

/-- With enough fuel the drain fires exactly the originally due jobs. -/
theorem fireDueJobs_fired_perm (f : TriggerJob → DispatchOutcome) (fuel : Nat) :
    ∀ (heap : List TriggerJob) (now : Int),
      heap.countP (fun j => decide (j.due ≤ now)) ≤ fuel →
      ((fireDueJobs f fuel heap now).fired.map Prod.fst).Perm
        (heap.filter fun j => decide (j.due ≤ now)) := by
  induction fuel with
  | zero =>
    intro heap now hcnt
    have h0 : heap.countP (fun j => decide (j.due ≤ now)) = 0 := Nat.le_zero.mp hcnt
    rw [List.countP_eq_length_filter] at h0
    rw [List.length_eq_zero.mp h0]
    exact List.Perm.refl _
  | succ fuel ih =>
    intro heap now hcnt
    cases hpop : popMinDue heap with
    | none =>
      rw [(popMinDue_none_iff heap).mp hpop]
      rw [(popMinDue_none_iff heap).mp hpop] at hpop
      rw [fireDueJobs_none f fuel [] now hpop]
      exact List.Perm.refl _
    | some q =>
      obtain ⟨job, rest⟩ := q
      by_cases hdue : now < job.due
      · rw [fireDueJobs_stop f fuel heap now job rest hpop hdue]
        have hnil : heap.filter (fun j => decide (j.due ≤ now)) = [] := by
          rw [List.filter_eq_nil_iff]
          intro k hk
          have := popMinDue_min heap hpop k hk
          simp only [decide_eq_true_eq]
          omega
        rw [hnil]
        exact List.Perm.refl _
      · rw [fireDueJobs_step f fuel heap now job rest hpop hdue]
        have hperm := popMinDue_perm heap hpop
        have hjd : (fun j : TriggerJob => decide (j.due ≤ now)) job = true := by
          simp only [decide_eq_true_eq]; omega
        have hcntperm := hperm.countP_eq (fun j => decide (j.due ≤ now))
        simp only [List.countP_cons, hjd, if_true] at hcntperm
        have hcnt2 : ((rescheduleAfterFire rest job now).1).countP
            (fun j => decide (j.due ≤ now)) ≤ fuel := by
          rw [rescheduleAfterFire_countP_due]
          omega
        have hih := ih (rescheduleAfterFire rest job now).1 now hcnt2
        rw [rescheduleAfterFire_filter_due] at hih
        have hcons : (job :: rest).filter (fun j => decide (j.due ≤ now)) =
            job :: rest.filter (fun j => decide (j.due ≤ now)) :=
          List.filter_cons_of_pos hjd
        have hfil : (job :: rest.filter (fun j => decide (j.due ≤ now))).Perm
            (heap.filter fun j => decide (j.due ≤ now)) := by
          rw [← hcons]
          exact hperm.filter _
        exact ((hih.cons job).trans hfil).trans (List.Perm.refl _)

/-- C8: the drain's queue evolution, fired-job sequence and reschedules
are independent of dispatch outcomes (so failures and caught exceptions
never change control flow); every fired job was due; the post-drain heap
holds only original jobs or fresh future-due jobs, so a popped job is
never re-enqueued; and with enough fuel the fired jobs are exactly the
originally due jobs, each fired once. -/
theorem claim_C8_discard_and_catch (f g : TriggerJob → DispatchOutcome) (fuel : Nat)
    (heap : List TriggerJob) (now : Int) :
    ((fireDueJobs f fuel heap now).heap = (fireDueJobs g fuel heap now).heap ∧
     (fireDueJobs f fuel heap now).fired.map Prod.fst =
       (fireDueJobs g fuel heap now).fired.map Prod.fst ∧
     (fireDueJobs f fuel heap now).resched = (fireDueJobs g fuel heap now).resched) ∧
    (∀ p ∈ (fireDueJobs f fuel heap now).fired, p.1.due ≤ now) ∧
    (∀ j ∈ (fireDueJobs f fuel heap now).heap, j ∈ heap ∨ now < j.due) ∧
    (heap.countP (fun j => decide (j.due ≤ now)) ≤ fuel →
      ((fireDueJobs f fuel heap now).fired.map Prod.fst).Perm
        (heap.filter fun j => decide (j.due ≤ now))) :=
  ⟨fireDueJobs_outcome_irrelevant f g fuel heap now,
   fireDueJobs_fired_due f fuel heap now,
   fun j hj => fireDueJobs_heap_mem f fuel heap now j hj,
   fireDueJobs_fired_perm f fuel heap now⟩

/-- The job fired in the C1/C8 witness scenarios: the sample event's AT
trigger at occurrence 0. -/
def c1DrainedJob : TriggerJob :=
  ⟨0, sampleEvent, 0, 0, { minutes := 0, typeOfTrigger := .AT }⟩

/-- Witness for C8: draining one due job fires exactly it. -/
theorem claim_C8_witness :
    ((fireDueJobs (fun _ => DispatchOutcome.ok) 1 [c1DrainedJob] 0).fired.map Prod.fst).Perm
      ([c1DrainedJob].filter fun j => decide (j.due ≤ 0)) :=
  (claim_C8_discard_and_catch (fun _ => DispatchOutcome.ok) (fun _ => DispatchOutcome.raised)
    1 [c1DrainedJob] 0).2.2.2 (by decide)

/-- If every job of event `E` in the heap is due strictly after `now`,
the drain performs no reschedule keyed to `E` at all (no `E` job can pop,
and mid-drain pushes for other events never produce `E` records). -/
theorem fireDueJobs_resched_zero (E : Event) (occ : Int)
    (outcome : TriggerJob → DispatchOutcome) (fuel : Nat) :
    ∀ (heap : List TriggerJob) (now : Int),
      (∀ j ∈ heap, j.event = E → now < j.due) →
      (fireDueJobs outcome fuel heap now).resched.countP
        (fun p => decide (p = (E, occ))) = 0 := by
  induction fuel with
  | zero => intro heap now _; simp [fireDueJobs]
  | succ fuel ih =>
    intro heap now hB
    cases hpop : popMinDue heap with
    | none => rw [fireDueJobs_none outcome fuel heap now hpop]; simp
    | some p =>
      obtain ⟨job, rest⟩ := p
      by_cases hdue : now < job.due
      · rw [fireDueJobs_stop outcome fuel heap now job rest hpop hdue]; simp
      · rw [fireDueJobs_step outcome fuel heap now job rest hpop hdue]
        have hperm := popMinDue_perm heap hpop
        have hjobmem : job ∈ heap := hperm.subset (List.mem_cons_self _ _)
        have hjobE : job.event ≠ E := fun hE => hdue (hB job hjobmem hE)
        have hrestmem : ∀ j ∈ rest, j ∈ heap :=
          fun j hj => hperm.subset (List.mem_cons_of_mem _ hj)
        dsimp only
        rw [List.countP_append]
        have h1 : (rescheduleAfterFire rest job now).2.countP
            (fun p => decide (p = (E, occ))) = 0 := by
          rcases rescheduleAfterFire_records rest job now with hr | hr <;> rw [hr]
          · simp
          · have hne : ¬ ((job.event, job.occurrence) = (E, occ)) := by
              intro hpq
              exact hjobE (congrArg Prod.fst hpq)
            simp [hne]
        have h2 : ∀ j ∈ (rescheduleAfterFire rest job now).1, j.event = E → now < j.due := by
          intro j hj hE
          rcases mem_rescheduleAfterFire hj with hj1 | ⟨-, hlt⟩
          · exact hB j (hrestmem j hj1) hE
          · exact hlt
        rw [h1, ih (rescheduleAfterFire rest job now).1 now h2]

/-- If the heap carries at least one job of repeating event `E`, all of
whose jobs bear occurrence `occ` and are already due, a sufficiently
fuelled drain performs exactly one reschedule of `(E, occ)`: each
non-final pop sees a pending sibling and skips the block, the final pop
runs it once, and the jobs it pushes are never due within the drain. -/
theorem fireDueJobs_resched_one (E : Event) (occ : Int)
    (outcome : TriggerJob → DispatchOutcome) (fuel : Nat) :
    ∀ (heap : List TriggerJob) (now : Int),
      E.repeating = true →
      (∀ j ∈ heap, j.event = E → j.occurrence = occ ∧ j.due ≤ now) →
      (∃ j ∈ heap, j.event = E) →
      heap.countP (fun j => decide (j.due ≤ now)) ≤ fuel →
      (fireDueJobs outcome fuel heap now).resched.countP
        (fun p => decide (p = (E, occ))) = 1 := by
  induction fuel with
  | zero =>
    intro heap now hrep hall hex hfuel
    exfalso
    obtain ⟨jE, hjE, hjEev⟩ := hex
    have hpos : 0 < heap.countP (fun j => decide (j.due ≤ now)) := by
      rw [List.countP_pos_iff]
      exact ⟨jE, hjE, by simpa using (hall jE hjE hjEev).2⟩
    omega
  | succ fuel ih =>
    intro heap now hrep hall hex hfuel
    obtain ⟨jE, hjE, hjEev⟩ := hex
    cases hpop : popMinDue heap with
    | none =>
      exfalso
      rw [(popMinDue_none_iff heap).mp hpop] at hjE
      simp at hjE
    | some p =>
      obtain ⟨job, rest⟩ := p
      have hperm := popMinDue_perm heap hpop
      have hmin := popMinDue_min heap hpop
      have hdue : ¬ now < job.due := by
        have h1 : job.due ≤ jE.due := hmin jE hjE
        have h2 : jE.due ≤ now := (hall jE hjE hjEev).2
        omega
      rw [fireDueJobs_step outcome fuel heap now job rest hpop hdue]
      dsimp only
      rw [List.countP_append]
      have hjobmem : job ∈ heap := hperm.subset (List.mem_cons_self _ _)
      have hrestmem : ∀ j ∈ rest, j ∈ heap :=
        fun j hj => hperm.subset (List.mem_cons_of_mem _ hj)
      have hjd : (fun j : TriggerJob => decide (j.due ≤ now)) job = true := by
        simp only [decide_eq_true_eq]; omega
      have hcntperm := hperm.countP_eq (fun j => decide (j.due ≤ now))
      simp only [List.countP_cons, hjd, if_true] at hcntperm
      by_cases hjE2 : job.event = E
      · have hjocc := hall job hjobmem hjE2
        by_cases hpend : ∃ j' ∈ rest, j'.event = E
        · obtain ⟨j', hj', hj'E⟩ := hpend
          have hsp : stillPending rest job = true := by
            rw [stillPending, List.any_eq_true]
            refine ⟨j', hj', ?_⟩
            rw [decide_eq_true_eq]
            exact ⟨hj'E.trans hjE2.symm, (hall j' (hrestmem j' hj') hj'E).1.trans hjocc.1.symm⟩
          have hrepjob : job.event.repeating = true := by rw [hjE2]; exact hrep
          have hresch : rescheduleAfterFire rest job now = (rest, []) := by
            rw [rescheduleAfterFire]
            simp [hrepjob, hsp]
          rw [hresch]
          simp only [List.countP_nil, Nat.zero_add]
          exact ih rest now hrep (fun j hj hE => hall j (hrestmem j hj) hE)
            ⟨j', hj', hj'E⟩ (by omega)
        · have hsp : stillPending rest job = false := by
            rw [stillPending]
            by_contra hne
            rw [Bool.not_eq_false, List.any_eq_true] at hne
            obtain ⟨j', hj', hcond⟩ := hne
            rw [decide_eq_true_eq] at hcond
            exact hpend ⟨j', hj', hcond.1.trans hjE2⟩
          have hrepjob : job.event.repeating = true := by rw [hjE2]; exact hrep
          obtain ⟨nocc, hnocc⟩ := Option.isSome_iff_exists.mp
            (nextWeeklyOccurrence_repeating_isSome job.event (job.occurrence + usPerSec) hrepjob)
          have hresch : rescheduleAfterFire rest job now =
              (pushTriggersForOccurrence rest job.event nocc now,
               [(job.event, job.occurrence)]) := by
            rw [rescheduleAfterFire]
            simp [hrepjob, hsp, hnocc]
          rw [hresch]
          have heq : (job.event, job.occurrence) = (E, occ) := by
            rw [hjE2, hjocc.1]
          have hB2 : ∀ j ∈ pushTriggersForOccurrence rest job.event nocc now,
              j.event = E → now < j.due := by
            intro j hj hE
            rcases mem_pushTriggersForOccurrence hj with hj1 | ⟨-, hlt⟩
            · exact absurd ⟨j, hj1, hE⟩ hpend
            · exact hlt
          have hzero := fireDueJobs_resched_zero E occ outcome fuel
            (pushTriggersForOccurrence rest job.event nocc now) now hB2
          rw [hzero]
          simp [heq]
      · have h1 : (rescheduleAfterFire rest job now).2.countP
            (fun p => decide (p = (E, occ))) = 0 := by
          rcases rescheduleAfterFire_records rest job now with hr | hr <;> rw [hr]
          · simp
          · have hne : ¬ ((job.event, job.occurrence) = (E, occ)) := by
              intro hpq
              exact hjE2 (congrArg Prod.fst hpq)
            simp [hne]
        rw [h1]
        have hall2 : ∀ j ∈ (rescheduleAfterFire rest job now).1,
            j.event = E → j.occurrence = occ ∧ j.due ≤ now := by
          intro j hj hE
          rcases mem_rescheduleAfterFire hj with hj1 | ⟨hev, -⟩
          · exact hall j (hrestmem j hj1) hE
          · exact absurd (hev.symm.trans hE) hjE2
        have hex2 : ∃ j ∈ (rescheduleAfterFire rest job now).1, j.event = E := by
          have hjEne : jE ≠ job := by
            intro hcontra
            exact hjE2 (hcontra ▸ hjEev)
          have hjErest : jE ∈ rest := by
            rcases List.mem_cons.mp (hperm.mem_iff.mpr hjE) with hcontra | hr
            · exact absurd hcontra hjEne
            · exact hr
          exact ⟨jE, subset_rescheduleAfterFire rest job now jE hjErest, hjEev⟩
        have hfuel2 : ((rescheduleAfterFire rest job now).1).countP
            (fun j => decide (j.due ≤ now)) ≤ fuel := by
          rw [rescheduleAfterFire_countP_due]
          omega
        rw [ih (rescheduleAfterFire rest job now).1 now hrep hall2 hex2 hfuel2]

/-- For a repeating event, calling the recurrence calculator with
`occurrence + 1 second` as the search floor recomputes the very same
occurrence when an enabled trigger's truncated due time still lies beyond
the floor, and the occurrence one week later otherwise. -/
theorem nextWeeklyOccurrence_reschedule (E : Event) (occ : Int)
    (hrep : E.repeating = true)
    (hwd : dateOf occ % 7 = E.day.value - 1)
    (htime : occ % usPerDay = E.time)
    (hfd : firstDateFor E ≤ dateOf occ) :
    nextWeeklyOccurrence E (occ + usPerSec) =
      (if hasFutureTrigger E occ (occ + usPerSec) then some occ
       else some (occ + 7 * usPerDay)) := by
  rw [nextWeeklyOccurrence_repeating_eq E (occ + usPerSec) hrep]
  have hv := weekday_value_bounds E.day
  have hL : lastDateFor E (occ + usPerSec) = dateOf occ := by
    simp only [lastDateFor, weekday, dateOf, usPerDay, usPerSec] at hwd hfd ⊢
    split <;> omega
  have hOcc : combine (lastDateFor E (occ + usPerSec)) E.time = occ := by
    rw [hL]
    simp only [combine, dateOf, usPerDay] at htime ⊢
    omega
  rw [hOcc]
  have hnotlt : ¬ (occ + usPerSec < occ) := by
    simp only [usPerSec]
    omega
  rw [if_neg hnotlt]

/-- C1 counterexample.  First conjunct: for the repeating `c6Event`
(single AFTER-20000-minute trigger) with the drained occurrence at
instant 0, the recurrence calculator called with `occurrence + 1 second`
returns the SAME occurrence, not one strictly after it.  Second
conjunct: running the reschedule block twice for one drained occurrence
of the sample event (whose triggers are all past, so the recomputed
occurrence is one week later) pushes the next occurrence's job twice —
the block itself is not idempotent; only its single execution per
drained occurrence prevents double-scheduling. -/
theorem claim_C1_counterexample :
    nextWeeklyOccurrence c6Event ((0 : Int) + usPerSec) = some 0 ∧
    (rescheduleAfterFire (rescheduleAfterFire [] c1DrainedJob 0).1 c1DrainedJob 0).1 =
      [⟨604800000000, sampleEvent, 604800000000, 0, { minutes := 0, typeOfTrigger := .AT }⟩,
       ⟨604800000000, sampleEvent, 604800000000, 0, { minutes := 0, typeOfTrigger := .AT }⟩] := by
  constructor
  · decide
  · decide

/-- C1 amended: when the firing loop pops the last job of a repeating
event's occurrence (every job of that event in the queue bears that
occurrence and is already due), the whole drain performs exactly one
reschedule of that occurrence; the occurrence recomputed from the
`occurrence + 1 second` floor is greater than OR EQUAL to the completed
one — equal exactly when an enabled trigger's truncated due time still
lies beyond the floor, and the occurrence plus 7 days otherwise. -/
theorem claim_C1_amended (E : Event) (occ now : Int) (heap : List TriggerJob)
    (outcome : TriggerJob → DispatchOutcome) (fuel : Nat)
    (hrep : E.repeating = true)
    (hall : ∀ j ∈ heap, j.event = E → j.occurrence = occ ∧ j.due ≤ now)
    (hex : ∃ j ∈ heap, j.event = E)
    (hfuel : heap.countP (fun j => decide (j.due ≤ now)) ≤ fuel)
    (hwd : dateOf occ % 7 = E.day.value - 1)
    (htime : occ % usPerDay = E.time)
    (hfd : firstDateFor E ≤ dateOf occ) :
    (fireDueJobs outcome fuel heap now).resched.countP
      (fun p => decide (p = (E, occ))) = 1 ∧
    (∀ r, nextWeeklyOccurrence E (occ + usPerSec) = some r → occ ≤ r) ∧
    (hasFutureTrigger E occ (occ + usPerSec) = true →
      nextWeeklyOccurrence E (occ + usPerSec) = some occ) ∧
    (hasFutureTrigger E occ (occ + usPerSec) = false →
      nextWeeklyOccurrence E (occ + usPerSec) = some (occ + 7 * usPerDay)) := by
  have hres := nextWeeklyOccurrence_reschedule E occ hrep hwd htime hfd
  refine ⟨fireDueJobs_resched_one E occ outcome fuel heap now hrep hall hex hfuel, ?_, ?_, ?_⟩
  · intro r hr
    rw [hres] at hr
    by_cases hf : hasFutureTrigger E occ (occ + usPerSec)
    · rw [if_pos hf] at hr
      have := Option.some_inj.mp hr
      omega
    · rw [if_neg hf] at hr
      have := Option.some_inj.mp hr
      simp only [usPerDay] at this
      omega
  · intro hf
    rw [hres, if_pos hf]
  · intro hf
    rw [hres, if_neg ?_]
    rw [hf]
    exact Bool.false_ne_true

/-- Witness for C1's amended theorem: one due AT job of the sample
Monday event at occurrence 0, drained at now = 0 with fuel 1. -/
theorem claim_C1_witness :
    (fireDueJobs (fun _ => DispatchOutcome.ok) 1 [c1DrainedJob] 0).resched.countP
      (fun p => decide (p = (sampleEvent, (0 : Int)))) = 1 ∧
    (∀ r, nextWeeklyOccurrence sampleEvent ((0 : Int) + usPerSec) = some r → (0 : Int) ≤ r) ∧
    (hasFutureTrigger sampleEvent 0 ((0 : Int) + usPerSec) = true →
      nextWeeklyOccurrence sampleEvent ((0 : Int) + usPerSec) = some 0) ∧
    (hasFutureTrigger sampleEvent 0 ((0 : Int) + usPerSec) = false →
      nextWeeklyOccurrence sampleEvent ((0 : Int) + usPerSec) = some ((0 : Int) + 7 * usPerDay)) :=
  claim_C1_amended sampleEvent 0 0 [c1DrainedJob] (fun _ => DispatchOutcome.ok) 1
    rfl (by decide) (by decide) (by decide) (by decide) (by decide) (by decide)

end Calendar
